import Mathlib

/-
Verification development for the indexeddb-promisify core (src/index.ts).

The library bridges the event-callback IndexedDB engine into promises.  The
embedding models each callback-driven bridge as a small state machine: the
handlers installed on a request or a transaction become a step function over
an explicit state record, and a run of the bridge is a left fold of that step
function over a trace of engine events.  Each handler is modeled as one atomic
step.  Promise settlement is modeled first-wins: a resolve or reject on an
already settled promise is a no-op, exactly as for a real promise.  Opaque
engine payloads (request results, store options, key paths) are modeled by
plain tags, since the core passes them through without inspecting them.
-/

namespace IDBP

/-- Errors that can settle a promise in the library, one constructor per
distinct error production site in src/index.ts. -/
inductive IDBError where
  | timeout
  | request
  | txnAbortDefault
  | blockedDefault
  | custom (tag : Nat)
deriving DecidableEq

/-- Outcome of a promise settlement: resolve or reject with an error. -/
inductive Settle where
  | resolved
  | rejected (e : IDBError)
deriving DecidableEq

/-- Observable actions performed by the bridge handlers, in execution order:
user callback invocations and effective promise settlements. -/
inductive Action where
  | timeoutCb
  | errorCb (e : Option IDBError)
  | resolveP
  | rejectP (e : IDBError)
deriving DecidableEq

/-- Log entry written when a settlement takes effect. -/
def settleAction : Settle → Action
  | .resolved => .resolveP
  | .rejected e => .rejectP e

/-- Number of effective settlements recorded in a log. -/
def settleCount (l : List Action) : Nat :=
  l.countP fun a =>
    match a with
    | .resolveP => true
    | .rejectP _ => true
    | _ => false

/-- Engine events that can reach the handlers installed by iDBPromise:
the setTimeout timer firing, the request success event, the request error
event. -/
inductive ReqEvent where
  | timer
  | success
  | error
deriving DecidableEq

/-- State of one iDBPromise race (src/index.ts lines 284 to 307): the
finished flag, whether the timer is still pending (clearTimeout or firing
makes it false), whether the code ever aborted the underlying operation
(iDBPromise contains no abort call, so no step sets this), the promise
settlement, and the ordered action log. -/
structure BState where
  finished : Bool
  timerActive : Bool
  aborted : Bool
  settled : Option Settle
  log : List Action
deriving DecidableEq

/-- Initial state right after iDBPromise installs its handlers and starts
the timer. -/
def BState.init : BState :=
  { finished := false, timerActive := true, aborted := false,
    settled := none, log := [] }

/-- Promise settlement, first-wins: only the first resolve or reject takes
effect and is logged. -/
def BState.settle (s : BState) (o : Settle) : BState :=
  match s.settled with
  | some _ => s
  | none => { s with settled := some o, log := s.log ++ [settleAction o] }

/-- One handler step of iDBPromise, translated from src/index.ts lines
284 to 307.  Timer handler: if not finished, invoke the timeout callback
then reject with the timeout error.  Success handler: set finished, clear
the timer, resolve.  Error handler: clear the timer, invoke the error
callback, reject with the request error; note that it neither sets nor
checks the finished flag, exactly as in the source. -/
def reqStep (reqErr : IDBError) (s : BState) (e : ReqEvent) : BState :=
  match e with
  | .timer =>
    if s.timerActive then
      let s1 := { s with timerActive := false }
      if s1.finished then s1
      else ({ s1 with log := s1.log ++ [Action.timeoutCb] }).settle (.rejected .timeout)
    else s
  | .success =>
    ({ s with finished := true, timerActive := false }).settle .resolved
  | .error =>
    ({ s with timerActive := false, log := s.log ++ [Action.errorCb (some reqErr)] }).settle
      (.rejected reqErr)

/-- Run the iDBPromise machine from a given state over a trace of events. -/
def runReqFrom (reqErr : IDBError) (s : BState) (tr : List ReqEvent) : BState :=
  tr.foldl (reqStep reqErr) s

/-- Run the iDBPromise machine from the initial state. -/
def runReq (reqErr : IDBError) (tr : List ReqEvent) : BState :=
  runReqFrom reqErr BState.init tr

theorem runReqFrom_append (r : IDBError) (s : BState) (t1 t2 : List ReqEvent) :
    runReqFrom r s (t1 ++ t2) = runReqFrom r (runReqFrom r s t1) t2 := by
  simp [runReqFrom, List.foldl_append]

theorem reqStep_settled_mono (r : IDBError) (s : BState) (e : ReqEvent)
    (o : Settle) (h : s.settled = some o) : (reqStep r s e).settled = some o := by
  cases e with
  | timer =>
    simp only [reqStep]
    split
    · split
      · exact h
      · simp [BState.settle, h]
    · exact h
  | success => simp [reqStep, BState.settle, h]
  | error => simp [reqStep, BState.settle, h]

theorem runReqFrom_settled_mono (r : IDBError) (s : BState) (tr : List ReqEvent)
    (o : Settle) (h : s.settled = some o) : (runReqFrom r s tr).settled = some o := by
  induction tr generalizing s with
  | nil => exact h
  | cons e tr ih => exact ih _ (reqStep_settled_mono r s e o h)

theorem settle_timerActive (s : BState) (o : Settle) :
    (s.settle o).timerActive = s.timerActive := by
  unfold BState.settle; split <;> rfl

theorem settle_aborted (s : BState) (o : Settle) :
    (s.settle o).aborted = s.aborted := by
  unfold BState.settle; split <;> rfl

theorem settle_log_mono (s : BState) (o : Settle) :
    ∃ d, (s.settle o).log = s.log ++ d := by
  unfold BState.settle; split
  · exact ⟨[], by simp⟩
  · exact ⟨[settleAction o], rfl⟩

theorem reqStep_aborted (r : IDBError) (s : BState) (e : ReqEvent) :
    (reqStep r s e).aborted = s.aborted := by
  cases e with
  | timer =>
    simp only [reqStep]
    split
    · split
      · rfl
      · rw [settle_aborted]
    · rfl
  | success => rw [reqStep, settle_aborted]
  | error => rw [reqStep, settle_aborted]

theorem runReqFrom_aborted (r : IDBError) (s : BState) (tr : List ReqEvent) :
    (runReqFrom r s tr).aborted = s.aborted := by
  induction tr generalizing s with
  | nil => rfl
  | cons e tr ih => rw [runReqFrom, List.foldl_cons, ← runReqFrom, ih, reqStep_aborted]

theorem reqStep_timer_inactive (r : IDBError) (s : BState)
    (h : s.timerActive = false) : reqStep r s .timer = s := by
  simp [reqStep, h]

theorem reqStep_timerActive_false (r : IDBError) (s : BState) (e : ReqEvent)
    (h : s.timerActive = false) : (reqStep r s e).timerActive = false := by
  cases e with
  | timer => rw [reqStep_timer_inactive r s h]; exact h
  | success => rw [reqStep, settle_timerActive]
  | error => rw [reqStep, settle_timerActive]

theorem runReqFrom_timerActive_false (r : IDBError) (s : BState) (tr : List ReqEvent)
    (h : s.timerActive = false) : (runReqFrom r s tr).timerActive = false := by
  induction tr generalizing s with
  | nil => exact h
  | cons e tr ih => exact ih _ (reqStep_timerActive_false r s e h)

theorem reqStep_log_mono (r : IDBError) (s : BState) (e : ReqEvent) :
    ∃ d, (reqStep r s e).log = s.log ++ d := by
  cases e with
  | timer =>
    simp only [reqStep]
    split
    · split
      · exact ⟨[], by simp⟩
      · obtain ⟨d, hd⟩ := settle_log_mono
          { s with timerActive := false, log := s.log ++ [Action.timeoutCb] }
          (.rejected .timeout)
        exact ⟨[Action.timeoutCb] ++ d, by simpa using hd⟩
    · exact ⟨[], by simp⟩
  | success =>
    obtain ⟨d, hd⟩ := settle_log_mono { s with finished := true, timerActive := false }
      Settle.resolved
    exact ⟨d, by simpa [reqStep] using hd⟩
  | error =>
    obtain ⟨d, hd⟩ := settle_log_mono
      { s with timerActive := false, log := s.log ++ [Action.errorCb (some r)] }
      (.rejected r)
    exact ⟨[Action.errorCb (some r)] ++ d, by simpa [reqStep] using hd⟩

theorem runReqFrom_log_mono (r : IDBError) (s : BState) (tr : List ReqEvent) :
    ∃ d, (runReqFrom r s tr).log = s.log ++ d := by
  induction tr generalizing s with
  | nil => exact ⟨[], by simp [runReqFrom]⟩
  | cons e tr ih =>
    obtain ⟨d1, hd1⟩ := reqStep_log_mono r s e
    obtain ⟨d2, hd2⟩ := ih (reqStep r s e)
    refine ⟨d1 ++ d2, ?_⟩
    rw [runReqFrom, List.foldl_cons, ← runReqFrom, hd2, hd1, List.append_assoc]

/-- Invariant tying the log to the settlement field: the log holds exactly one
settlement entry when the promise is settled and none before, and a resolve
entry can appear only when the promise settled resolved. -/
def SettleInv (s : BState) : Prop :=
  settleCount s.log = (if s.settled.isSome then 1 else 0) ∧
  (Action.resolveP ∈ s.log → s.settled = some Settle.resolved)

theorem settleCount_append (l1 l2 : List Action) :
    settleCount (l1 ++ l2) = settleCount l1 + settleCount l2 :=
  List.countP_append _ l1 l2

theorem settleCount_settleAction (o : Settle) : settleCount [settleAction o] = 1 := by
  cases o <;> rfl

theorem settleAction_ne_timeoutCb (o : Settle) : settleAction o ≠ Action.timeoutCb := by
  cases o <;> simp [settleAction]

theorem settle_inv (s : BState) (o : Settle) (h : SettleInv s) : SettleInv (s.settle o) := by
  unfold BState.settle
  cases hs : s.settled with
  | some o0 =>
    simpa using h
  | none =>
    obtain ⟨h1, h2⟩ := h
    constructor
    · simp only [settleCount_append, settleCount_settleAction]
      rw [h1]
      simp [hs]
    · intro hm
      rcases List.mem_append.mp hm with hm | hm
      · rw [h2 hm] at hs; cases hs
      · simp only [List.mem_singleton] at hm
        cases o with
        | resolved => rfl
        | rejected e => simp [settleAction] at hm

theorem SettleInv_junk_append (s : BState) (f t ab : Bool) (a : Action)
    (ha1 : settleCount [a] = 0) (ha2 : a ≠ Action.resolveP) (h : SettleInv s) :
    SettleInv { finished := f, timerActive := t, aborted := ab,
                settled := s.settled, log := s.log ++ [a] } := by
  obtain ⟨h1, h2⟩ := h
  constructor
  · simpa [settleCount_append, ha1] using h1
  · intro hm
    rcases List.mem_append.mp hm with hm | hm
    · exact h2 hm
    · simp only [List.mem_singleton] at hm
      exact absurd hm.symm ha2

theorem SettleInv_fields (s : BState) (f t ab : Bool) (h : SettleInv s) :
    SettleInv { finished := f, timerActive := t, aborted := ab,
                settled := s.settled, log := s.log } := h

theorem reqStep_inv (r : IDBError) (s : BState) (e : ReqEvent) (h : SettleInv s) :
    SettleInv (reqStep r s e) := by
  cases e with
  | timer =>
    simp only [reqStep]
    split
    · split
      · exact SettleInv_fields s s.finished false s.aborted h
      · exact settle_inv _ _
          (SettleInv_junk_append s s.finished false s.aborted Action.timeoutCb rfl
            (by simp) h)
    · exact h
  | success =>
    exact settle_inv _ _ (SettleInv_fields s true false s.aborted h)
  | error =>
    exact settle_inv _ _
      (SettleInv_junk_append s s.finished false s.aborted (Action.errorCb (some r)) rfl
        (by simp) h)

theorem runReqFrom_inv (r : IDBError) (s : BState) (tr : List ReqEvent)
    (h : SettleInv s) : SettleInv (runReqFrom r s tr) := by
  induction tr generalizing s with
  | nil => exact h
  | cons e tr ih => exact ih _ (reqStep_inv r s e h)

theorem runReq_inv (r : IDBError) (tr : List ReqEvent) : SettleInv (runReq r tr) :=
  runReqFrom_inv r BState.init tr (by constructor <;> simp [BState.init, settleCount])

/-- Every run of the iDBPromise machine settles the promise at most once. -/
theorem runReq_settleCount_le_one (r : IDBError) (tr : List ReqEvent) :
    settleCount (runReq r tr).log ≤ 1 := by
  have h := (runReq_inv r tr).1
  rw [h]
  split <;> simp

theorem settle_timeoutCb_mem (s : BState) (o : Settle)
    (h : Action.timeoutCb ∈ (s.settle o).log) : Action.timeoutCb ∈ s.log := by
  unfold BState.settle at h
  split at h
  · exact h
  · simp only [List.mem_append, List.mem_singleton] at h
    rcases h with h | h
    · exact h
    · exact absurd h.symm (settleAction_ne_timeoutCb o)

theorem reqStep_timeoutCb_mem (r : IDBError) (s : BState) (e : ReqEvent)
    (h : Action.timeoutCb ∈ (reqStep r s e).log) :
    Action.timeoutCb ∈ s.log ∨ (e = ReqEvent.timer ∧ s.timerActive = true) := by
  cases e with
  | timer =>
    by_cases ht : s.timerActive = true
    · exact Or.inr ⟨rfl, ht⟩
    · rw [reqStep_timer_inactive r s (by simpa using ht)] at h
      exact Or.inl h
  | success =>
    rw [reqStep] at h
    exact Or.inl
      (settle_timeoutCb_mem { s with finished := true, timerActive := false } _ h)
  | error =>
    rw [reqStep] at h
    have h2 := settle_timeoutCb_mem
      { s with timerActive := false, log := s.log ++ [Action.errorCb (some r)] } _ h
    simp only [List.mem_append, List.mem_singleton] at h2
    rcases h2 with h2 | h2
    · exact Or.inl h2
    · cases h2

theorem runReqFrom_timeoutCb_inactive (r : IDBError) (s : BState)
    (tr : List ReqEvent) (hs : s.timerActive = false)
    (h : Action.timeoutCb ∉ s.log) :
    Action.timeoutCb ∉ (runReqFrom r s tr).log := by
  induction tr generalizing s with
  | nil => exact h
  | cons e tr ih =>
    refine ih (reqStep r s e) (reqStep_timerActive_false r s e hs) ?_
    intro hm
    rcases reqStep_timeoutCb_mem r s e hm with hm | ⟨_, hm⟩
    · exact h hm
    · rw [hs] at hm; cases hm

theorem runReqFrom_timeoutCb_no_timer (r : IDBError) (s : BState)
    (tr : List ReqEvent) (ht : ReqEvent.timer ∉ tr)
    (h : Action.timeoutCb ∉ s.log) :
    Action.timeoutCb ∉ (runReqFrom r s tr).log := by
  induction tr generalizing s with
  | nil => exact h
  | cons e tr ih =>
    have hne : e ≠ ReqEvent.timer := fun he => ht (he ▸ List.mem_cons_self e tr)
    refine ih (reqStep r s e) (fun hm => ht (List.mem_cons_of_mem e hm)) ?_
    intro hm
    rcases reqStep_timeoutCb_mem r s e hm with hm | ⟨he, _⟩
    · exact h hm
    · exact hne he

theorem runReqFrom_timerActive_after_terminal (r : IDBError) (s : BState)
    (tr : List ReqEvent)
    (h : ReqEvent.success ∈ tr ∨ ReqEvent.error ∈ tr) :
    (runReqFrom r s tr).timerActive = false := by
  induction tr generalizing s with
  | nil => simp at h
  | cons e tr ih =>
    by_cases he : ReqEvent.success ∈ tr ∨ ReqEvent.error ∈ tr
    · exact ih _ he
    · have : e = ReqEvent.success ∨ e = ReqEvent.error := by
        push_neg at he
        rcases h with h | h <;> rcases List.mem_cons.mp h with h | h
        · exact Or.inl h.symm
        · exact absurd h he.1
        · exact Or.inr h.symm
        · exact absurd h he.2
      have hstep : (reqStep r s e).timerActive = false := by
        rcases this with h0 | h0 <;> subst h0 <;> rw [reqStep, settle_timerActive]
      exact runReqFrom_timerActive_false r _ tr hstep

/-- State of the iDBPromise machine right after the first timer firing when
no success and no error event has come before: the timeout callback ran and
the promise rejected with the timeout error, while the finished flag is
still false. -/
def postTimer : BState :=
  { finished := false, timerActive := false, aborted := false,
    settled := some (Settle.rejected IDBError.timeout),
    log := [Action.timeoutCb, Action.rejectP IDBError.timeout] }

theorem reqStep_init_timer (r : IDBError) :
    reqStep r BState.init ReqEvent.timer = postTimer := rfl

theorem runReqFrom_replicate_timer (r : IDBError) (s : BState) (n : Nat)
    (hs : s.timerActive = false) :
    runReqFrom r s (List.replicate n ReqEvent.timer) = s := by
  induction n with
  | zero => rfl
  | succ n ih =>
    rw [List.replicate_succ, runReqFrom, List.foldl_cons, ← runReqFrom,
      reqStep_timer_inactive r s hs, ih]

theorem runReq_timer_first (r : IDBError) (n : Nat) (rest : List ReqEvent) :
    runReq r (List.replicate n ReqEvent.timer ++ ReqEvent.timer :: rest)
      = runReqFrom r postTimer rest := by
  induction n with
  | zero =>
    rw [List.replicate_zero, List.nil_append, runReq, runReqFrom, List.foldl_cons,
      ← runReqFrom, reqStep_init_timer]
  | succ n _ =>
    rw [List.replicate_succ, List.cons_append, runReq, runReqFrom, List.foldl_cons,
      ← runReqFrom, reqStep_init_timer, runReqFrom_append,
      runReqFrom_replicate_timer r postTimer n rfl, runReqFrom, List.foldl_cons,
      ← runReqFrom, reqStep_timer_inactive r postTimer rfl]

/-- C1, counterexample.  The claim states that whichever terminal path occurs
first disables the other two, the settled flag being checked before reacting
to any later event, so that an error event arriving after a timeout rejection
fires no further callback.  On the trace timer-then-error, the timeout path
runs its callback and rejects, and the later error event still invokes the
configured error callback: two of the three terminal callback paths execute.
The flag is in fact neither set nor checked by the error handler. -/
theorem c1_counterexample :
    Action.timeoutCb ∈ (runReq IDBError.request [ReqEvent.timer, ReqEvent.error]).log ∧
    Action.errorCb (some IDBError.request)
      ∈ (runReq IDBError.request [ReqEvent.timer, ReqEvent.error]).log := by
  decide

/-- C1, amended.  For every event trace the promise settles at most once
(first settlement wins, later resolve or reject calls are no-ops); the
success handler sets the finished flag and cancels the timer, the error
handler cancels the timer, and the timer handler checks the flag, so after a
success or error event no timeout callback can ever fire; but the error
handler neither sets nor checks the flag, so an error event that arrives
after a timeout rejection still invokes the error callback, without
re-settling the already rejected promise. -/
theorem c1_exactly_once_amended (r : IDBError) (pre post : List ReqEvent)
    (hpre : ReqEvent.timer ∉ pre)
    (hterm : ReqEvent.success ∈ pre ∨ ReqEvent.error ∈ pre) :
    (∀ tr : List ReqEvent, settleCount (runReq r tr).log ≤ 1) ∧
    Action.timeoutCb ∉ (runReq r (pre ++ ReqEvent.timer :: post)).log ∧
    (∀ k : Nat,
      (runReq r (List.replicate k ReqEvent.timer
          ++ ReqEvent.timer :: [ReqEvent.error])).settled
        = some (Settle.rejected IDBError.timeout) ∧
      Action.errorCb (some r)
        ∈ (runReq r (List.replicate k ReqEvent.timer
            ++ ReqEvent.timer :: [ReqEvent.error])).log) := by
  refine ⟨runReq_settleCount_le_one r, ?_, ?_⟩
  · rw [runReq, runReqFrom_append]
    have h1 : Action.timeoutCb ∉ (runReqFrom r BState.init pre).log :=
      runReqFrom_timeoutCb_no_timer r BState.init pre hpre (by simp [BState.init])
    have h2 : (runReqFrom r BState.init pre).timerActive = false :=
      runReqFrom_timerActive_after_terminal r BState.init pre hterm
    rw [runReqFrom, List.foldl_cons, ← runReqFrom, reqStep_timer_inactive r _ h2]
    exact runReqFrom_timeoutCb_inactive r _ post h2 h1
  · intro k
    rw [runReq_timer_first]
    constructor
    · exact runReqFrom_settled_mono r postTimer _ _ rfl
    · simp [runReqFrom, reqStep, BState.settle, postTimer]

/-- C1, witness for the amended theorem at the concrete trace where a success
event precedes the timer firing. -/
theorem c1_witness :
    Action.timeoutCb
      ∉ (runReq IDBError.request ([ReqEvent.success] ++ ReqEvent.timer :: [])).log :=
  (c1_exactly_once_amended IDBError.request [ReqEvent.success] [] (by decide)
    (by decide)).2.1

/-- C7, confirmed.  Whenever the timer fires before any success or error
event of the underlying request, the iDBPromise race rejects with the
timeout error, the timeout callback is invoked strictly before the
rejection, the machine never aborts the underlying operation (no step sets
the aborted field), and a late success arriving after the timeout is
discarded: the promise is never resolved, so it is not settled a second
time.  The source for the callback data flow is src/index.ts lines 288 to
293: the callback receives the owning connection, the store name and the
configured timeout, then the promise rejects. -/
theorem c7_timeout_no_abort (r : IDBError) (n : Nat) (rest : List ReqEvent) :
    (runReq r (List.replicate n ReqEvent.timer ++ ReqEvent.timer :: rest)).settled
      = some (Settle.rejected IDBError.timeout) ∧
    (∃ l2, (runReq r (List.replicate n ReqEvent.timer ++ ReqEvent.timer :: rest)).log
      = Action.timeoutCb :: Action.rejectP IDBError.timeout :: l2) ∧
    (runReq r (List.replicate n ReqEvent.timer ++ ReqEvent.timer :: rest)).aborted
      = false ∧
    Action.resolveP
      ∉ (runReq r (List.replicate n ReqEvent.timer ++ ReqEvent.timer :: rest)).log := by
  rw [runReq_timer_first]
  refine ⟨runReqFrom_settled_mono r postTimer rest _ rfl, ?_, ?_, ?_⟩
  · obtain ⟨d, hd⟩ := runReqFrom_log_mono r postTimer rest
    exact ⟨d, by simpa [postTimer] using hd⟩
  · rw [runReqFrom_aborted]; rfl
  · intro hm
    have hinv := runReqFrom_inv r postTimer rest (by unfold SettleInv; decide)
    have hres := hinv.2 hm
    have hset := runReqFrom_settled_mono r postTimer rest _ rfl
    rw [hres] at hset
    cases hset

/-- Engine events that reach the handlers installed by iDBCursorPromise:
a success event carrying the next cursor position, a success event with a
null cursor (exhaustion), an error event, and the elapsing of the configured
timeout duration.  The source (src/index.ts lines 309 to 335) installs no
timer at all, so nothing listens for the last event. -/
inductive CurEvent (C : Type) where
  | step (c : C)
  | exhausted
  | error
  | timer
deriving DecidableEq

/-- Settlement of a cursor promise: resolution carries the accumulated
result list. -/
inductive CurSettle (T : Type) where
  | resolved (xs : List T)
  | rejected (e : IDBError)
deriving DecidableEq

/-- State of one iDBCursorPromise run: the accumulator pushed so far, the
promise settlement, and the callback log. -/
structure CurState (T : Type) where
  data : List T
  settled : Option (CurSettle T)
  log : List Action
deriving DecidableEq

/-- Initial state right after iDBCursorPromise installs its handlers. -/
def curInit (T : Type) : CurState T := { data := [], settled := none, log := [] }

/-- Promise settlement for the cursor bridge, first-wins. -/
def CurState.settle {T : Type} (s : CurState T) (o : CurSettle T) : CurState T :=
  match s.settled with
  | some _ => s
  | none => { s with settled := some o }

/-- One handler step of iDBCursorPromise, translated from src/index.ts lines
309 to 335.  Success with a live cursor: apply the callback, push the result
only when it is truthy, advance.  Success with a null cursor: resolve with
the accumulated data.  Error: invoke the error callback, reject with the
request error.  Timer elapse: no handler exists, nothing happens. -/
def curStep {C T : Type} (cb : C → T) (truthy : T → Bool) (reqErr : IDBError)
    (s : CurState T) (e : CurEvent C) : CurState T :=
  match e with
  | .step c =>
    let result := cb c
    if truthy result then { s with data := s.data ++ [result] } else s
  | .exhausted => s.settle (.resolved s.data)
  | .error =>
    ({ s with log := s.log ++ [Action.errorCb (some reqErr)] }).settle (.rejected reqErr)
  | .timer => s

/-- Run the iDBCursorPromise machine over a trace of events. -/
def runCur {C T : Type} (cb : C → T) (truthy : T → Bool) (reqErr : IDBError)
    (tr : List (CurEvent C)) : CurState T :=
  tr.foldl (curStep cb truthy reqErr) (curInit T)

theorem runCur_steps {C T : Type} (cb : C → T) (truthy : T → Bool) (r : IDBError)
    (cs : List C) (s : CurState T) :
    List.foldl (curStep cb truthy r) s (cs.map CurEvent.step)
      = { s with data := s.data ++ (cs.map cb).filter truthy } := by
  induction cs generalizing s with
  | nil => simp
  | cons c cs ih =>
    rw [List.map_cons, List.foldl_cons, ih]
    by_cases h : truthy (cb c) <;> simp [curStep, h]

/-- C8, confirmed.  For any traversal and per-step transform: on a full
traversal ending in exhaustion the promise resolves with exactly the truthy
transform results in traversal order (falsy results dropped); on a traversal
that errors at any step the error callback is invoked and the promise
rejects with that error, and no result list whatsoever is resolved. -/
theorem c8_cursor_accumulation {C T : Type} (cb : C → T) (truthy : T → Bool)
    (r : IDBError) (cs cs2 : List C) :
    (runCur cb truthy r (cs.map CurEvent.step ++ [CurEvent.exhausted])).settled
      = some (CurSettle.resolved ((cs.map cb).filter truthy)) ∧
    (runCur cb truthy r (cs2.map CurEvent.step ++ [CurEvent.error])).settled
      = some (CurSettle.rejected r) ∧
    Action.errorCb (some r)
      ∈ (runCur cb truthy r (cs2.map CurEvent.step ++ [CurEvent.error])).log ∧
    ∀ xs, (runCur cb truthy r (cs2.map CurEvent.step ++ [CurEvent.error])).settled
      ≠ some (CurSettle.resolved xs) := by
  have h1 : (runCur cb truthy r (cs.map CurEvent.step ++ [CurEvent.exhausted])).settled
      = some (CurSettle.resolved ((cs.map cb).filter truthy)) := by
    rw [runCur, List.foldl_append, runCur_steps]
    simp [curStep, CurState.settle, curInit]
  have h2 : runCur cb truthy r (cs2.map CurEvent.step ++ [CurEvent.error])
      = { data := (cs2.map cb).filter truthy,
          settled := some (CurSettle.rejected r),
          log := [Action.errorCb (some r)] } := by
    rw [runCur, List.foldl_append, runCur_steps]
    simp [curStep, CurState.settle, curInit]
  refine ⟨h1, ?_, ?_, ?_⟩
  · rw [h2]
  · rw [h2]; simp
  · intro xs h
    rw [h2] at h
    cases h

/-- The operation set returned by useStore (src/index.ts lines 283 to 427),
one constructor per returned method. -/
inductive StoreOp where
  | add
  | put
  | get
  | getAll
  | getKey
  | getAllKeys
  | count
  | del
  | clear
  | openCursor
  | openKeyCursor
deriving DecidableEq

/-- The two request bridges defined inside useStore. -/
inductive Adapter where
  | promiseAdapter
  | cursorAdapter
deriving DecidableEq

/-- Which bridge the body of each useStore operation returns its promise
through: openCursor and openKeyCursor go through iDBCursorPromise, every
other operation goes through iDBPromise. -/
def opAdapter : StoreOp → Adapter
  | .openCursor => .cursorAdapter
  | .openKeyCursor => .cursorAdapter
  | _ => .promiseAdapter

/-- How each useStore operation obtains its transaction.  Every body calls
db.transaction directly, creating a fresh per-call engine transaction; none
of them goes through the transaction coordinator factory, which is the only
place a transaction-level timeout timer is attached. -/
inductive TxnOrigin where
  | rawPerCall
  | coordinated
deriving DecidableEq

/-- Read off from the eleven operation bodies in src/index.ts lines 336 to
412: each creates its transaction with a direct db.transaction call. -/
def opTxnOrigin : StoreOp → TxnOrigin := fun _ => .rawPerCall

theorem runCur_timers {C T : Type} (cb : C → T) (truthy : T → Bool)
    (r : IDBError) (k : Nat) :
    runCur cb truthy r (List.replicate k (CurEvent.timer (C := C))) = curInit T := by
  unfold runCur
  induction k with
  | zero => rfl
  | succ k ih => rw [List.replicate_succ, List.foldl_cons]; exact ih

/-- C6, counterexample.  The claim states that every useStore operation,
including openCursor and openKeyCursor, is timeout-bounded: if it does not
complete within the configured timeout its promise rejects with a timeout
error, the bound for the cursor operations being provided by the enclosing
transaction.  But the cursor operations run through iDBCursorPromise, which
installs no timer, inside a fresh per-call db.transaction to which no
coordinator timeout is attached: after the timeout duration elapses with no
completion, the cursor promise is still unsettled instead of rejected. -/
theorem c6_counterexample :
    opAdapter StoreOp.openCursor = Adapter.cursorAdapter ∧
    opTxnOrigin StoreOp.openCursor = TxnOrigin.rawPerCall ∧
    (runCur (fun c : Nat => c) (fun t => decide (t ≠ 0)) IDBError.request
      [CurEvent.timer]).settled = none := by
  refine ⟨rfl, rfl, ?_⟩
  have h := runCur_timers (fun c : Nat => c) (fun t => decide (t ≠ 0))
    IDBError.request 1
  simp only [List.replicate_one] at h
  rw [h]
  rfl

/-- C6, amended.  The nine request-returning operations of useStore are
timeout-bounded through the iDBPromise race: if the timer fires before any
success or error event, their promise rejects with the timeout error.  The
two cursor operations are not timeout-bounded at all: they run through
iDBCursorPromise, which has no timer of its own, and the transaction
enclosing them is a fresh per-call db.transaction, not a coordinator
transaction, so no timeout is attached anywhere and the promise stays
unsettled for however long no cursor event arrives. -/
theorem c6_cursor_unbounded_amended (r : IDBError) (n k : Nat)
    (cb : Nat → Nat) (truthy : Nat → Bool) (rest : List ReqEvent) :
    ([StoreOp.add, StoreOp.put, StoreOp.get, StoreOp.getAll, StoreOp.getKey,
        StoreOp.getAllKeys, StoreOp.count, StoreOp.del, StoreOp.clear].all
      fun op => opAdapter op == Adapter.promiseAdapter) = true ∧
    (runReq r (List.replicate n ReqEvent.timer ++ ReqEvent.timer :: rest)).settled
      = some (Settle.rejected IDBError.timeout) ∧
    opAdapter StoreOp.openCursor = Adapter.cursorAdapter ∧
    opAdapter StoreOp.openKeyCursor = Adapter.cursorAdapter ∧
    opTxnOrigin StoreOp.openCursor = TxnOrigin.rawPerCall ∧
    opTxnOrigin StoreOp.openKeyCursor = TxnOrigin.rawPerCall ∧
    (runCur cb truthy r (List.replicate k (CurEvent.timer (C := Nat)))).settled
      = none := by
  refine ⟨rfl, ?_, rfl, rfl, rfl, rfl, ?_⟩
  · rw [runReq_timer_first]
    exact runReqFrom_settled_mono r postTimer rest _ rfl
  · rw [runCur_timers]
    rfl

/-- Engine events that reach the handlers installed by the transaction
coordinator (src/index.ts lines 429 to 477): the transaction complete,
error and abort events, and the firing of the coordinator timer. -/
inductive TxnEvent where
  | complete
  | error
  | abort
  | timer
deriving DecidableEq

/-- One handler step of the transaction coordinator, translated from
src/index.ts lines 440 to 474, over the same bridge state record.  Timer
handler: if not finished, abort the transaction, invoke the timeout
callback, reject with the timeout error.  Complete handler: set finished,
clear the timer, resolve.  Error and abort handlers: set finished, clear
the timer, invoke the error callback with the transaction error (possibly
null), reject with that error or the default aborted error.  The aborted
field records that the coordinator itself called transaction.abort. -/
def txnStep (txnErr : Option IDBError) (s : BState) (e : TxnEvent) : BState :=
  match e with
  | .timer =>
    if s.timerActive then
      let s1 := { s with timerActive := false }
      if s1.finished then s1
      else ({ s1 with aborted := true, log := s1.log ++ [Action.timeoutCb] }).settle (.rejected .timeout)
    else s
  | .complete =>
    ({ s with finished := true, timerActive := false }).settle .resolved
  | .error =>
    ({ s with finished := true, timerActive := false, log := s.log ++ [Action.errorCb txnErr] }).settle (.rejected (txnErr.getD .txnAbortDefault))
  | .abort =>
    ({ s with finished := true, timerActive := false, log := s.log ++ [Action.errorCb txnErr] }).settle (.rejected (txnErr.getD .txnAbortDefault))

/-- Run the coordinator machine from a given state over a trace of events. -/
def runTxnFrom (txnErr : Option IDBError) (s : BState) (tr : List TxnEvent) : BState :=
  tr.foldl (txnStep txnErr) s

/-- Run the coordinator machine from the initial state. -/
def runTxn (txnErr : Option IDBError) (tr : List TxnEvent) : BState :=
  runTxnFrom txnErr BState.init tr

theorem txnStep_settled_mono (r : Option IDBError) (s : BState) (e : TxnEvent)
    (o : Settle) (h : s.settled = some o) : (txnStep r s e).settled = some o := by
  cases e with
  | timer =>
    simp only [txnStep]
    split
    · split
      · exact h
      · simp [BState.settle, h]
    · exact h
  | complete => simp [txnStep, BState.settle, h]
  | error => simp [txnStep, BState.settle, h]
  | abort => simp [txnStep, BState.settle, h]

theorem runTxnFrom_settled_mono (r : Option IDBError) (s : BState)
    (tr : List TxnEvent) (o : Settle) (h : s.settled = some o) :
    (runTxnFrom r s tr).settled = some o := by
  induction tr generalizing s with
  | nil => exact h
  | cons e tr ih => exact ih _ (txnStep_settled_mono r s e o h)

theorem txnStep_aborted_mono (r : Option IDBError) (s : BState) (e : TxnEvent)
    (h : s.aborted = true) : (txnStep r s e).aborted = true := by
  cases e with
  | timer =>
    simp only [txnStep]
    split
    · split
      · exact h
      · rw [settle_aborted]
    · exact h
  | complete => rw [txnStep, settle_aborted]; exact h
  | error => rw [txnStep, settle_aborted]; exact h
  | abort => rw [txnStep, settle_aborted]; exact h

theorem runTxnFrom_aborted_mono (r : Option IDBError) (s : BState)
    (tr : List TxnEvent) (h : s.aborted = true) :
    (runTxnFrom r s tr).aborted = true := by
  induction tr generalizing s with
  | nil => exact h
  | cons e tr ih => exact ih _ (txnStep_aborted_mono r s e h)

theorem txnStep_timer_inactive (r : Option IDBError) (s : BState)
    (h : s.timerActive = false) : txnStep r s .timer = s := by
  simp [txnStep, h]

theorem txnStep_timerActive_false (r : Option IDBError) (s : BState) (e : TxnEvent)
    (h : s.timerActive = false) : (txnStep r s e).timerActive = false := by
  cases e with
  | timer => rw [txnStep_timer_inactive r s h]; exact h
  | complete => rw [txnStep, settle_timerActive]
  | error => rw [txnStep, settle_timerActive]
  | abort => rw [txnStep, settle_timerActive]

theorem txnStep_inv (r : Option IDBError) (s : BState) (e : TxnEvent)
    (h : SettleInv s) : SettleInv (txnStep r s e) := by
  cases e with
  | timer =>
    simp only [txnStep]
    split
    · split
      · exact SettleInv_fields s s.finished false s.aborted h
      · exact settle_inv _ _
          (SettleInv_junk_append s s.finished false true Action.timeoutCb rfl
            (by simp) h)
    · exact h
  | complete =>
    exact settle_inv _ _ (SettleInv_fields s true false s.aborted h)
  | error =>
    exact settle_inv _ _
      (SettleInv_junk_append s true false s.aborted (Action.errorCb r) rfl
        (by simp) h)
  | abort =>
    exact settle_inv _ _
      (SettleInv_junk_append s true false s.aborted (Action.errorCb r) rfl
        (by simp) h)

theorem runTxnFrom_inv (r : Option IDBError) (s : BState) (tr : List TxnEvent)
    (h : SettleInv s) : SettleInv (runTxnFrom r s tr) := by
  induction tr generalizing s with
  | nil => exact h
  | cons e tr ih => exact ih _ (txnStep_inv r s e h)

theorem runTxn_settleCount_le_one (r : Option IDBError) (tr : List TxnEvent) :
    settleCount (runTxn r tr).log ≤ 1 := by
  have h := (runTxnFrom_inv r BState.init tr
    (by constructor <;> simp [BState.init, settleCount])).1
  rw [runTxn, h]
  split <;> simp

theorem txnStep_timeoutCb_mem (r : Option IDBError) (s : BState) (e : TxnEvent)
    (h : Action.timeoutCb ∈ (txnStep r s e).log) :
    Action.timeoutCb ∈ s.log ∨ (e = TxnEvent.timer ∧ s.timerActive = true) := by
  cases e with
  | timer =>
    by_cases ht : s.timerActive = true
    · exact Or.inr ⟨rfl, ht⟩
    · rw [txnStep_timer_inactive r s (by simpa using ht)] at h
      exact Or.inl h
  | complete =>
    rw [txnStep] at h
    exact Or.inl (settle_timeoutCb_mem { s with finished := true, timerActive := false } _ h)
  | error =>
    rw [txnStep] at h
    have h2 := settle_timeoutCb_mem { s with finished := true, timerActive := false, log := s.log ++ [Action.errorCb r] } _ h
    simp only [List.mem_append, List.mem_singleton] at h2
    rcases h2 with h2 | h2
    · exact Or.inl h2
    · cases h2
  | abort =>
    rw [txnStep] at h
    have h2 := settle_timeoutCb_mem { s with finished := true, timerActive := false, log := s.log ++ [Action.errorCb r] } _ h
    simp only [List.mem_append, List.mem_singleton] at h2
    rcases h2 with h2 | h2
    · exact Or.inl h2
    · cases h2

theorem runTxnFrom_timeoutCb_inactive (r : Option IDBError) (s : BState)
    (tr : List TxnEvent) (hs : s.timerActive = false)
    (h : Action.timeoutCb ∉ s.log) :
    Action.timeoutCb ∉ (runTxnFrom r s tr).log := by
  induction tr generalizing s with
  | nil => exact h
  | cons e tr ih =>
    refine ih (txnStep r s e) (txnStep_timerActive_false r s e hs) ?_
    intro hm
    rcases txnStep_timeoutCb_mem r s e hm with hm | ⟨_, hm⟩
    · exact h hm
    · rw [hs] at hm; cases hm

theorem txnStep_log_mono (r : Option IDBError) (s : BState) (e : TxnEvent) :
    ∃ d, (txnStep r s e).log = s.log ++ d := by
  cases e with
  | timer =>
    simp only [txnStep]
    split
    · split
      · exact ⟨[], by simp⟩
      · obtain ⟨d, hd⟩ := settle_log_mono { s with timerActive := false, aborted := true, log := s.log ++ [Action.timeoutCb] } (.rejected .timeout)
        exact ⟨[Action.timeoutCb] ++ d, by simpa using hd⟩
    · exact ⟨[], by simp⟩
  | complete =>
    obtain ⟨d, hd⟩ := settle_log_mono { s with finished := true, timerActive := false }
      Settle.resolved
    exact ⟨d, by simpa [txnStep] using hd⟩
  | error =>
    obtain ⟨d, hd⟩ := settle_log_mono { s with finished := true, timerActive := false, log := s.log ++ [Action.errorCb r] } (.rejected (r.getD .txnAbortDefault))
    exact ⟨[Action.errorCb r] ++ d, by simpa [txnStep] using hd⟩
  | abort =>
    obtain ⟨d, hd⟩ := settle_log_mono { s with finished := true, timerActive := false, log := s.log ++ [Action.errorCb r] } (.rejected (r.getD .txnAbortDefault))
    exact ⟨[Action.errorCb r] ++ d, by simpa [txnStep] using hd⟩

theorem runTxnFrom_log_mono (r : Option IDBError) (s : BState) (tr : List TxnEvent) :
    ∃ d, (runTxnFrom r s tr).log = s.log ++ d := by
  induction tr generalizing s with
  | nil => exact ⟨[], by simp [runTxnFrom]⟩
  | cons e tr ih =>
    obtain ⟨d1, hd1⟩ := txnStep_log_mono r s e
    obtain ⟨d2, hd2⟩ := ih (txnStep r s e)
    refine ⟨d1 ++ d2, ?_⟩
    rw [runTxnFrom, List.foldl_cons, ← runTxnFrom, hd2, hd1, List.append_assoc]

/-- State of the coordinator right after the timer fires first: the
transaction has been aborted by the coordinator, the timeout callback ran
and done rejected with the timeout error. -/
def txnPostTimer : BState :=
  { finished := false, timerActive := false, aborted := true,
    settled := some (Settle.rejected IDBError.timeout),
    log := [Action.timeoutCb, Action.rejectP IDBError.timeout] }

theorem txnStep_init_timer (r : Option IDBError) :
    txnStep r BState.init TxnEvent.timer = txnPostTimer := rfl

theorem runTxnFrom_replicate_timer (r : Option IDBError) (s : BState) (n : Nat)
    (hs : s.timerActive = false) :
    runTxnFrom r s (List.replicate n TxnEvent.timer) = s := by
  induction n with
  | zero => rfl
  | succ n ih =>
    rw [List.replicate_succ, runTxnFrom, List.foldl_cons, ← runTxnFrom,
      txnStep_timer_inactive r s hs, ih]

theorem runTxnFrom_append (r : Option IDBError) (s : BState)
    (t1 t2 : List TxnEvent) :
    runTxnFrom r s (t1 ++ t2) = runTxnFrom r (runTxnFrom r s t1) t2 := by
  simp [runTxnFrom, List.foldl_append]

theorem runTxn_timer_first (r : Option IDBError) (n : Nat) (rest : List TxnEvent) :
    runTxn r (List.replicate n TxnEvent.timer ++ TxnEvent.timer :: rest)
      = runTxnFrom r txnPostTimer rest := by
  induction n with
  | zero =>
    rw [List.replicate_zero, List.nil_append, runTxn, runTxnFrom, List.foldl_cons,
      ← runTxnFrom, txnStep_init_timer]
  | succ n _ =>
    rw [List.replicate_succ, List.cons_append, runTxn, runTxnFrom, List.foldl_cons,
      ← runTxnFrom, txnStep_init_timer, runTxnFrom_append,
      runTxnFrom_replicate_timer r txnPostTimer n rfl, runTxnFrom, List.foldl_cons,
      ← runTxnFrom, txnStep_timer_inactive r txnPostTimer rfl]

/-- C5, confirmed.  For the transaction coordinator: if the timer fires
before any complete, error or abort event of the transaction, the
coordinator aborts the transaction, invokes the timeout callback, and
rejects done with the timeout error, the callback running before the
rejection; if the transaction completes first, done resolves and the
finished guard keeps the timer from ever firing the timeout callback; if
the error or abort event comes first, done rejects with the transaction
error or the default aborted error; and on every trace done settles at most
once, making the three outcomes mutually exclusive and final. -/
theorem c5_txn_timeout_aborts (e : Option IDBError) (n : Nat)
    (rest rest2 rest3 : List TxnEvent) :
    (runTxn e (List.replicate n TxnEvent.timer ++ TxnEvent.timer :: rest)).aborted
        = true ∧
    (runTxn e (List.replicate n TxnEvent.timer ++ TxnEvent.timer :: rest)).settled
        = some (Settle.rejected IDBError.timeout) ∧
    (∃ l2, (runTxn e (List.replicate n TxnEvent.timer ++ TxnEvent.timer :: rest)).log
        = Action.timeoutCb :: Action.rejectP IDBError.timeout :: l2) ∧
    (runTxn e (TxnEvent.complete :: rest2)).settled = some Settle.resolved ∧
    Action.timeoutCb ∉ (runTxn e (TxnEvent.complete :: rest2)).log ∧
    (runTxn e (TxnEvent.error :: rest3)).settled
        = some (Settle.rejected (e.getD IDBError.txnAbortDefault)) ∧
    (runTxn e (TxnEvent.abort :: rest3)).settled
        = some (Settle.rejected (e.getD IDBError.txnAbortDefault)) ∧
    (∀ tr : List TxnEvent, settleCount (runTxn e tr).log ≤ 1) := by
  have hpost : runTxn e (TxnEvent.complete :: rest2)
      = runTxnFrom e (txnStep e BState.init TxnEvent.complete) rest2 := by
    rw [runTxn, runTxnFrom, List.foldl_cons, ← runTxnFrom]
  have hcomp : txnStep e BState.init TxnEvent.complete
      = { finished := true, timerActive := false, aborted := false,
          settled := some Settle.resolved, log := [Action.resolveP] } := rfl
  refine ⟨?_, ?_, ?_, ?_, ?_, ?_, ?_, runTxn_settleCount_le_one e⟩
  · rw [runTxn_timer_first]
    exact runTxnFrom_aborted_mono e txnPostTimer rest rfl
  · rw [runTxn_timer_first]
    exact runTxnFrom_settled_mono e txnPostTimer rest _ rfl
  · rw [runTxn_timer_first]
    obtain ⟨d2, hd2⟩ := runTxnFrom_log_mono e txnPostTimer rest
    exact ⟨d2, by simpa [txnPostTimer] using hd2⟩
  · rw [hpost, hcomp]
    exact runTxnFrom_settled_mono e _ rest2 _ rfl
  · rw [hpost, hcomp]
    exact runTxnFrom_timeoutCb_inactive e _ rest2 rfl (by simp)
  · rw [runTxn, runTxnFrom, List.foldl_cons, ← runTxnFrom]
    exact runTxnFrom_settled_mono e _ rest3 _
      (by simp [txnStep, BState.settle, BState.init])
  · rw [runTxn, runTxnFrom, List.foldl_cons, ← runTxnFrom]
    exact runTxnFrom_settled_mono e _ rest3 _
      (by simp [txnStep, BState.settle, BState.init])

/-- Secondary index: its name, key path, and an opaque options payload
(IDBIndexParameters is passed through without inspection). -/
structure IndexSchema where
  name : String
  keyPath : String
  options : Option Nat
deriving DecidableEq

/-- Configured store schema, from the StoreSchema interface in
src/index.ts: name, opaque creation options, optional index list. -/
structure StoreSchema where
  name : String
  options : Option Nat
  index : Option (List IndexSchema)
deriving DecidableEq

/-- On-disk object store: its name, the options it was created with, and
its current index set. -/
structure StoreState where
  name : String
  options : Option Nat
  indexes : List IndexSchema
deriving DecidableEq

/-- On-disk database structure: the list of object stores. -/
abbrev DbStructure := List StoreState

/-- Engine primitive db.deleteObjectStore: removes the store with the
given name. -/
def deleteObjectStore (n : String) (db : DbStructure) : DbStructure :=
  db.filter fun t => t.name ≠ n

/-- Engine primitive db.createObjectStore: adds a fresh store with no
indexes. -/
def createObjectStore (n : String) (opts : Option Nat) (db : DbStructure) : DbStructure :=
  db ++ [{ name := n, options := opts, indexes := [] }]

/-- Engine primitive db.objectStoreNames.contains. -/
def containsStore (db : DbStructure) (n : String) : Bool :=
  db.any fun t => t.name = n

/-- Engine primitive store.deleteIndex. -/
def deleteIndex (n : String) (t : StoreState) : StoreState :=
  { t with indexes := t.indexes.filter fun ix => ix.name ≠ n }

/-- Engine primitive store.createIndex. -/
def createIndex (ix : IndexSchema) (t : StoreState) : StoreState :=
  { t with indexes := t.indexes ++ [ix] }

/-- Engine primitive store.indexNames.contains. -/
def containsIndex (t : StoreState) (n : String) : Bool :=
  t.indexes.any fun ix => ix.name = n

/-- The configured index list of a store schema; an absent list behaves as
the empty list in both loops of the source (the optional chain makes the
deletion guard true and the creation forEach a no-op). -/
def cfgIndex (s : StoreSchema) : List IndexSchema := s.index.getD []

/-- Index reconciliation for one configured store, translated from
src/index.ts lines 252 to 264: first delete, iterating over a snapshot of
the current index names, every index whose name is absent from the
configured index list, then create every configured index whose name is
not yet present, with its key path and options. -/
def syncIndexes (s : StoreSchema) (t : StoreState) : StoreState :=
  let t1 := (t.indexes.map fun ix => ix.name).foldl
    (fun acc n => if (cfgIndex s).any (fun j => j.name = n) then acc else deleteIndex n acc) t
  (cfgIndex s).foldl
    (fun acc ix => if containsIndex acc ix.name then acc else createIndex ix acc) t1

/-- Guarded store creation, from src/index.ts lines 248 to 250: create the
configured store with its options only when no store of that name exists. -/
def ensureStore (s : StoreSchema) (db : DbStructure) : DbStructure :=
  if containsStore db s.name then db else createObjectStore s.name s.options db

/-- Apply a function to every store carrying the given name (the store the
upgrade transaction hands out under that name). -/
def updateStore (n : String) (f : StoreState → StoreState) (db : DbStructure) : DbStructure :=
  db.map fun t => if t.name = n then f t else t

/-- The Schema Synchronizer, translated from src/index.ts lines 240 to 266:
the first loop deletes, iterating over a snapshot of the existing store
names, every store whose name is absent from the configured store list; the
second loop walks the configured stores in order, creates each missing
store with its options, and then reconciles the index set of the store
carrying that name. -/
def synchronize (db : DbStructure) (stores : List StoreSchema) : DbStructure :=
  let db1 := (db.map fun t => t.name).foldl
    (fun acc n => if stores.all (fun s => s.name ≠ n) then deleteObjectStore n acc else acc) db
  stores.foldl (fun acc s => updateStore s.name (syncIndexes s) (ensureStore s acc)) db1

/-- A configured migration: its target version and its structural effect.
The effect stands for whatever changes the user-supplied migration function
performs through the db and transaction handles passed to it; the runner
itself issues none. -/
structure Migration where
  version : Nat
  effect : DbStructure → DbStructure

/-- The sort applied to config.migrations at src/index.ts line 233: the
comparator a.version - b.version orders ascending by version, stably. -/
def sortByVersion (ms : List Migration) : List Migration :=
  List.insertionSort (fun a b => a.version ≤ b.version) ms

/-- The migrations the runner executes during one upgrade: the sorted list
filtered by the guard at src/index.ts line 236, oldVersion strictly below
the migration version and the migration version at most newVersion. -/
def executedMigrations (ms : List Migration) (o n : Nat) : List Migration :=
  (sortByVersion ms).filter fun m => decide (o < m.version) && decide (m.version ≤ n)

/-- The migration pipeline of src/index.ts lines 235 to 239: each executed
migration is awaited before the next starts, so the net structural change
is the left fold of their effects; the loop itself adds nothing. -/
def runMigrations (ms : List Migration) (o n : Nat) (db : DbStructure) : DbStructure :=
  (executedMigrations ms o n).foldl (fun st m => m.effect st) db

/-- The two reconciliation strategies of the upgrade handler. -/
inductive UpgradeBranch where
  | migrationRunner
  | schemaSynchronizer
deriving DecidableEq

/-- The branch choice at src/index.ts line 231: Array.isArray selects the
migration runner for any present array, even an empty one; only an absent
migrations field reaches the synchronizer branch. -/
def chosenBranch (migrations : Option (List Migration)) : UpgradeBranch :=
  match migrations with
  | some _ => .migrationRunner
  | none => .schemaSynchronizer

/-- Net structural result of one onupgradeneeded run, src/index.ts lines
223 to 269. -/
def upgradeReconcile (migrations : Option (List Migration))
    (stores : List StoreSchema) (db : DbStructure) (o n : Nat) : DbStructure :=
  match migrations with
  | some ms => runMigrations ms o n db
  | none => synchronize db stores

instance : IsTotal Migration (fun a b => a.version ≤ b.version) :=
  ⟨fun a b => Nat.le_total a.version b.version⟩

instance : IsTrans Migration (fun a b => a.version ≤ b.version) :=
  ⟨fun _ _ _ h1 h2 => Nat.le_trans h1 h2⟩

theorem sortByVersion_perm (ms : List Migration) : (sortByVersion ms).Perm ms :=
  List.perm_insertionSort _ ms

theorem sortByVersion_sorted (ms : List Migration) :
    List.Sorted (fun a b => a.version ≤ b.version) (sortByVersion ms) :=
  List.sorted_insertionSort _ ms

theorem executedMigrations_perm (ms : List Migration) (o n : Nat) :
    (executedMigrations ms o n).Perm
      (ms.filter fun m => decide (o < m.version) && decide (m.version ≤ n)) :=
  List.Perm.filter _ (sortByVersion_perm ms)

theorem foldl_effect_id (l : List Migration) (db : DbStructure)
    (h : ∀ m ∈ l, ∀ st, m.effect st = st) :
    l.foldl (fun st m => m.effect st) db = db := by
  induction l generalizing db with
  | nil => rfl
  | cons m l ih =>
    rw [List.foldl_cons, h m (List.mem_cons_self m l) db]
    exact ih db fun m2 hm st => h m2 (List.mem_cons_of_mem m hm) st

/-- C3, confirmed.  For every configured migration list with pairwise
distinct versions and every version pair, the executed migrations are
exactly those with oldVersion below the version and the version at most
newVersion (as a permutation of that filter of the configured list), they
run in strictly ascending version order, the run is the sequential left
fold of their effects, and the runner itself changes nothing: when every
executed migration leaves the structure alone, so does the whole run. -/
theorem c3_migration_runner (ms : List Migration) (o n : Nat) (db : DbStructure)
    (hnd : (ms.map fun m => m.version).Nodup)
    (heff : ∀ m ∈ ms, ∀ st, m.effect st = st) :
    (executedMigrations ms o n).Perm
      (ms.filter fun m => decide (o < m.version) && decide (m.version ≤ n)) ∧
    (∀ m ∈ executedMigrations ms o n, o < m.version ∧ m.version ≤ n) ∧
    List.Sorted (· < ·) ((executedMigrations ms o n).map fun m => m.version) ∧
    runMigrations ms o n db
      = (executedMigrations ms o n).foldl (fun st m => m.effect st) db ∧
    runMigrations ms o n db = db := by
  refine ⟨executedMigrations_perm ms o n, ?_, ?_, rfl, ?_⟩
  · intro m hm
    unfold executedMigrations at hm
    rw [List.mem_filter] at hm
    have h2 := hm.2
    simp only [Bool.and_eq_true, decide_eq_true_eq] at h2
    exact h2
  · have hsorted : List.Sorted (fun a b => a.version ≤ b.version)
        (executedMigrations ms o n) :=
      List.Pairwise.sublist (List.filter_sublist _) (sortByVersion_sorted ms)
    have hle : List.Sorted (· ≤ ·) ((executedMigrations ms o n).map fun m => m.version) :=
      List.pairwise_map.mpr hsorted
    have hnd2 : ((executedMigrations ms o n).map fun m => m.version).Nodup := by
      have hperm := (executedMigrations_perm ms o n).map fun m => m.version
      refine hperm.nodup_iff.mpr ?_
      exact List.Nodup.sublist (List.Sublist.map _ (List.filter_sublist ms)) hnd
    exact List.Sorted.lt_of_le hle hnd2
  · refine foldl_effect_id _ db fun m hm st => ?_
    have hmem : m ∈ ms := by
      have h1 := (executedMigrations_perm ms o n).mem_iff.mp hm
      exact (List.mem_filter.mp h1).1
    exact heff m hmem st

/-- C3, witness at a concrete two-element migration list with identity
effects: versions 2 and 1 configured out of order, upgrade from 0 to 2. -/
theorem c3_witness :
    List.Sorted (· < ·)
      ((executedMigrations
        [{ version := 2, effect := fun st => st },
         { version := 1, effect := fun st => st }] 0 2).map fun m => m.version) ∧
    runMigrations
      [{ version := 2, effect := fun st => st },
       { version := 1, effect := fun st => st }] 0 2 [] = [] := by
  have h := c3_migration_runner
    [{ version := 2, effect := fun st => st },
     { version := 1, effect := fun st => st }] 0 2 []
    (by decide)
    (by
      intro m hm st
      simp only [List.mem_cons, List.not_mem_nil, or_false] at hm
      rcases hm with hm | hm <;> subst hm <;> rfl)
  exact ⟨h.2.2.1, h.2.2.2.2⟩

/-- C2, counterexample.  The claim states that for every configuration with
an empty or absent migrations set the automatic diffing branch runs.  But
the branch test is Array.isArray: a present, empty migrations array selects
the migration runner branch, not the synchronizer.  Concretely, reopening a
database holding store A with a configuration listing only store B and
migrations set to the empty array leaves store A untouched, whereas the
synchronizer would have replaced it with store B. -/
theorem c2_counterexample :
    chosenBranch (some ([] : List Migration)) ≠ UpgradeBranch.schemaSynchronizer ∧
    upgradeReconcile (some ([] : List Migration))
        [{ name := "B", options := none, index := none }]
        [{ name := "A", options := none, indexes := [] }] 1 2
      = [{ name := "A", options := none, indexes := [] }] ∧
    synchronize [{ name := "A", options := none, indexes := [] }]
        [{ name := "B", options := none, index := none }]
      = [{ name := "B", options := none, indexes := [] }] := by
  refine ⟨?_, rfl, rfl⟩
  intro h
  cases h

/-- C2, amended.  The schema synchronizer runs if and only if the
migrations field is absent; any present array, even an empty one, selects
the migration runner branch, under which no automatic creation or deletion
of stores or indexes occurs: when the configured migrations perform no
structural changes of their own, the structure is returned untouched. -/
theorem c2_branch_amended (ms : List Migration)
    (heff : ∀ m ∈ ms, ∀ st, m.effect st = st) :
    (∀ migrations : Option (List Migration),
      chosenBranch migrations = UpgradeBranch.schemaSynchronizer ↔ migrations = none) ∧
    (∀ stores db o n, upgradeReconcile none stores db o n = synchronize db stores) ∧
    (∀ stores db o n, upgradeReconcile (some ms) stores db o n = db) := by
  refine ⟨?_, fun _ _ _ _ => rfl, ?_⟩
  · intro migrations
    cases migrations with
    | none => simp [chosenBranch]
    | some l => simp [chosenBranch]
  · intro stores db o n
    show runMigrations ms o n db = db
    refine foldl_effect_id _ db fun m hm st => ?_
    have hmem : m ∈ ms :=
      (List.mem_filter.mp ((executedMigrations_perm ms o n).mem_iff.mp hm)).1
    exact heff m hmem st

/-- C2, witness for the amended theorem at a concrete one-element migration
list with an identity effect. -/
theorem c2_witness :
    upgradeReconcile (some [{ version := 1, effect := fun st => st }]) [] [] 0 1 = [] :=
  (c2_branch_amended [{ version := 1, effect := fun st => st }]
    (by
      intro m hm st
      simp only [List.mem_cons, List.not_mem_nil, or_false] at hm
      subst hm
      rfl)).2.2 [] [] 0 1

/-- The lifecycle callbacks relevant to the blocked path: the optional
onBlocked callback (receiving old and new version, optionally returning a
custom error) and whether an onError callback is configured. -/
structure BlockedEvents where
  onBlocked : Option (Nat → Nat → Option IDBError)
  hasOnError : Bool

/-- Observable actions of the open sequence on the blocked path, in
execution order. -/
inductive OpenAction where
  | blockedCb (oldV newV : Nat)
  | errorCb (e : IDBError)
  | rejectOpen (e : IDBError)
deriving DecidableEq

/-- The onblocked handler of openIndexedDB, translated from src/index.ts
lines 210 to 221: compute the new version (event value or the configured
version), synthesize the default blocked error, let a configured onBlocked
callback replace it by a returned custom error, invoke the configured
onError callback with the resulting error, and reject the open promise with
it.  The handler ends there: no retry and no waiting is performed. -/
def onblocked (cfgVersion : Nat) (ev : BlockedEvents) (oldV : Nat)
    (newV? : Option Nat) : List OpenAction :=
  let newV := newV?.getD cfgVersion
  let defaultErr : IDBError := .blockedDefault
  match ev.onBlocked with
  | some cb =>
    let err := (cb oldV newV).getD defaultErr
    [.blockedCb oldV newV] ++ (if ev.hasOnError then [.errorCb err] else [])
      ++ [.rejectOpen err]
  | none =>
    (if ev.hasOnError then [.errorCb defaultErr] else []) ++ [.rejectOpen defaultErr]

/-- C9, confirmed.  On a blocked open with both callbacks configured, the
manager invokes the blocked callback with the old and new versions, uses
the error it returns when there is one and the synthesized default blocked
error otherwise, then invokes the generic error callback with that same
error, and finally rejects the open promise with it.  The action list ends
at the rejection: the handler performs nothing further, so the state is
terminal with no retry and no waiting. -/
theorem c9_blocked_terminal (v oldV : Nat) (newV? : Option Nat) (e : IDBError) :
    onblocked v { onBlocked := some fun _ _ => some e, hasOnError := true } oldV newV?
      = [OpenAction.blockedCb oldV (newV?.getD v), OpenAction.errorCb e,
         OpenAction.rejectOpen e] ∧
    onblocked v { onBlocked := some fun _ _ => none, hasOnError := true } oldV newV?
      = [OpenAction.blockedCb oldV (newV?.getD v),
         OpenAction.errorCb IDBError.blockedDefault,
         OpenAction.rejectOpen IDBError.blockedDefault] := by
  exact ⟨rfl, rfl⟩

/-- The caller-supplied configuration object handed to openIndexedDB, with
the events set reduced to an opaque tag since openIndexedDB never rewrites
it. -/
structure OpenConfig where
  name : String
  version : Nat
  stores : List StoreSchema
  migrations : Option (List Migration)
  transactionTimeout : Option Nat
  events : Option Nat

/-- The mutations openIndexedDB applies to the caller-supplied config
object: src/index.ts line 197 writes transactionTimeout back onto it (5000
when absent, the present value otherwise), and line 233, which executes
only inside the onupgradeneeded handler and only on its migration branch,
sorts the migrations array in place.  The upgradeRan flag records whether
the upgrade handler fired during this open. -/
def openConfigEffect (c : OpenConfig) (upgradeRan : Bool) : OpenConfig :=
  let c1 := { c with transactionTimeout := some (c.transactionTimeout.getD 5000) }
  if upgradeRan then
    match c1.migrations with
    | some ms => { c1 with migrations := some (sortByVersion ms) }
    | none => c1
  else c1

/-- C10, counterexample.  The claim states that whenever migrations is an
array it is sorted in place ascending by version.  The sort sits inside the
onupgradeneeded handler, so an open that triggers no upgrade (same version)
leaves the array untouched: with configured versions [2, 1] and no upgrade,
the array still reads [2, 1] afterwards, which is not ascending. -/
theorem c10_counterexample :
    ((openConfigEffect
        { name := "d", version := 1, stores := [],
          migrations := some [{ version := 2, effect := fun st => st },
                              { version := 1, effect := fun st => st }],
          transactionTimeout := some 5, events := none }
        false).migrations.getD []).map (fun m => m.version) = [2, 1] ∧
    ¬ List.Sorted (· ≤ ·) [2, 1] := by
  exact ⟨rfl, by decide⟩

/-- C10, amended.  openIndexedDB always writes transactionTimeout back onto
the caller-supplied config (5000 when absent, the present value otherwise);
it sorts a present migrations array in place, ascending by version, but
only when the upgrade handler actually runs; and it leaves every other
field (name, version, stores, events) unchanged in all cases, as well as
migrations when no upgrade runs. -/
theorem c10_config_mutation_amended (c : OpenConfig) (ms : List Migration) :
    (∀ u : Bool, (openConfigEffect c u).transactionTimeout
      = some (c.transactionTimeout.getD 5000)) ∧
    (∀ u : Bool, (openConfigEffect c u).name = c.name
      ∧ (openConfigEffect c u).version = c.version
      ∧ (openConfigEffect c u).stores = c.stores
      ∧ (openConfigEffect c u).events = c.events) ∧
    (openConfigEffect c false).migrations = c.migrations ∧
    (openConfigEffect { c with migrations := some ms } true).migrations
      = some (sortByVersion ms) ∧
    List.Sorted (· ≤ ·) ((sortByVersion ms).map fun m => m.version) ∧
    (sortByVersion ms).Perm ms := by
  refine ⟨?_, ?_, rfl, rfl, ?_, sortByVersion_perm ms⟩
  · intro u
    cases u with
    | false => rfl
    | true =>
      simp only [openConfigEffect]
      cases c.migrations <;> simp
  · intro u
    cases u with
    | false => exact ⟨rfl, rfl, rfl, rfl⟩
    | true =>
      simp only [openConfigEffect]
      cases c.migrations <;> simp
  · exact List.pairwise_map.mpr (sortByVersion_sorted ms)

theorem foldDelete_eq_filter (stores : List StoreSchema) (names : List String)
    (acc : DbStructure) :
    names.foldl
      (fun acc n => if stores.all (fun s => s.name ≠ n) then deleteObjectStore n acc else acc)
      acc
      = acc.filter fun t =>
          decide (t.name ∉ names) || stores.any fun s => s.name = t.name := by
  induction names generalizing acc with
  | nil => simp
  | cons n names ih =>
    rw [List.foldl_cons]
    by_cases hc : (stores.all fun s => s.name ≠ n) = true
    · rw [if_pos hc, ih, deleteObjectStore, List.filter_filter]
      refine List.filter_congr fun t _ => ?_
      by_cases ht : t.name = n
      · subst ht
        simp only [List.all_eq_true, decide_eq_true_eq] at hc
        have hany : (stores.any fun s => s.name = t.name) = false := by
          simp only [List.any_eq_true, decide_eq_true_eq, Bool.eq_false_iff, ne_eq]
          intro ⟨s, hs, he⟩
          exact hc s hs he
        simp [hany]
      · simp [List.mem_cons, ht]
    · rw [if_neg hc, ih]
      refine List.filter_congr fun t _ => ?_
      by_cases ht : t.name = n
      · subst ht
        simp only [List.all_eq_true, decide_eq_true_eq, not_forall] at hc
        have hany : (stores.any fun s => s.name = t.name) = true := by
          simp only [List.any_eq_true, decide_eq_true_eq]
          obtain ⟨s, hs, he⟩ := hc
          exact ⟨s, hs, by simpa using he⟩
        simp [hany]
      · simp [List.mem_cons, ht]

/-- Closed form of the store deletion pass: a store of the initial
structure survives exactly when the configured store list carries its
name. -/
theorem synchronize_deletion_pass (db : DbStructure) (stores : List StoreSchema) :
    (db.map fun t => t.name).foldl
      (fun acc n => if stores.all (fun s => s.name ≠ n) then deleteObjectStore n acc else acc)
      db
      = db.filter fun t => stores.any fun s => s.name = t.name := by
  rw [foldDelete_eq_filter]
  refine List.filter_congr fun t htm => ?_
  have hmem : t.name ∈ db.map fun t => t.name := List.mem_map_of_mem _ htm
  simp [hmem]

theorem foldDeleteIndex_eq_filter (cfg : List IndexSchema) (names : List String)
    (t : StoreState) :
    names.foldl
      (fun acc n => if cfg.any (fun j => j.name = n) then acc else deleteIndex n acc) t
      = { t with indexes := t.indexes.filter fun ix =>
            decide (ix.name ∉ names) || cfg.any fun j => j.name = ix.name } := by
  induction names generalizing t with
  | nil => simp
  | cons n names ih =>
    rw [List.foldl_cons]
    by_cases hc : (cfg.any fun j => j.name = n) = true
    · rw [if_pos hc, ih]
      have : (t.indexes.filter fun ix =>
            decide (ix.name ∉ names) || cfg.any fun j => j.name = ix.name)
          = t.indexes.filter fun ix =>
            decide (ix.name ∉ n :: names) || cfg.any fun j => j.name = ix.name := by
        refine List.filter_congr fun ix _ => ?_
        by_cases ht : ix.name = n
        · subst ht
          simp [hc]
        · simp [List.mem_cons, ht]
      rw [this]
    · rw [if_neg hc, ih]
      simp only [deleteIndex, List.filter_filter]
      have : (t.indexes.filter fun ix =>
            (decide (ix.name ∉ names) || cfg.any fun j => j.name = ix.name)
              && decide (ix.name ≠ n))
          = t.indexes.filter fun ix =>
            decide (ix.name ∉ n :: names) || cfg.any fun j => j.name = ix.name := by
        refine List.filter_congr fun ix _ => ?_
        by_cases ht : ix.name = n
        · subst ht
          have hany : (cfg.any fun j => j.name = ix.name) = false := by
            simpa using hc
          simp [hany]
        · simp [List.mem_cons, ht]
      rw [this]

/-- The deletion half of syncIndexes in closed form: an index survives
exactly when the configured index list carries its name. -/
theorem syncIndexes_deletion (s : StoreSchema) (t : StoreState) :
    (t.indexes.map fun ix => ix.name).foldl
      (fun acc n => if (cfgIndex s).any (fun j => j.name = n) then acc else deleteIndex n acc)
      t
      = { t with indexes := t.indexes.filter fun ix =>
            (cfgIndex s).any fun j => j.name = ix.name } := by
  rw [foldDeleteIndex_eq_filter]
  have : (t.indexes.filter fun ix =>
        decide (ix.name ∉ t.indexes.map fun ix2 => ix2.name)
          || (cfgIndex s).any fun j => j.name = ix.name)
      = t.indexes.filter fun ix => (cfgIndex s).any fun j => j.name = ix.name := by
    refine List.filter_congr fun ix hmem => ?_
    have h2 : ix.name ∈ t.indexes.map fun ix2 => ix2.name := List.mem_map_of_mem _ hmem
    simp [h2]
  rw [this]

theorem createIndexFold_name (cfg : List IndexSchema) (t : StoreState) :
    (cfg.foldl (fun acc ix => if containsIndex acc ix.name then acc else createIndex ix acc)
        t).name = t.name
    ∧ (cfg.foldl (fun acc ix => if containsIndex acc ix.name then acc else createIndex ix acc)
        t).options = t.options := by
  induction cfg generalizing t with
  | nil => exact ⟨rfl, rfl⟩
  | cons ix cfg ih =>
    rw [List.foldl_cons]
    by_cases hc : containsIndex t ix.name = true
    · rw [if_pos hc]; exact ih t
    · rw [if_neg hc]
      have h := ih (createIndex ix t)
      simpa [createIndex] using h

theorem createIndexFold_mem (cfg : List IndexSchema) (t : StoreState) (m : String) :
    (m ∈ (cfg.foldl
        (fun acc ix => if containsIndex acc ix.name then acc else createIndex ix acc)
        t).indexes.map fun ix => ix.name)
      ↔ (m ∈ t.indexes.map fun ix => ix.name) ∨ m ∈ cfg.map fun ix => ix.name := by
  induction cfg generalizing t with
  | nil => simp
  | cons ix cfg ih =>
    rw [List.foldl_cons]
    by_cases hc : containsIndex t ix.name = true
    · rw [if_pos hc, ih]
      have hmem : ix.name ∈ t.indexes.map fun ix2 => ix2.name := by
        simpa [containsIndex, List.any_eq_true] using hc
      simp only [List.map_cons, List.mem_cons]
      constructor
      · rintro (h | h)
        · exact Or.inl h
        · exact Or.inr (Or.inr h)
      · rintro (h | h | h)
        · exact Or.inl h
        · exact Or.inl (h ▸ hmem)
        · exact Or.inr h
    · rw [if_neg hc, ih]
      simp only [createIndex, List.map_append, List.mem_append, List.map_cons,
        List.mem_cons, List.map_nil, List.mem_singleton, List.not_mem_nil, or_false]
      constructor
      · rintro ((h | h) | h)
        · exact Or.inl h
        · exact Or.inr (Or.inl h)
        · exact Or.inr (Or.inr h)
      · rintro (h | (h | h))
        · exact Or.inl (Or.inl h)
        · exact Or.inl (Or.inr h)
        · exact Or.inr h

theorem createIndexFold_nodup (cfg : List IndexSchema) (t : StoreState)
    (hc : (cfg.map fun ix => ix.name).Nodup)
    (ht : (t.indexes.map fun ix => ix.name).Nodup) :
    ((cfg.foldl
        (fun acc ix => if containsIndex acc ix.name then acc else createIndex ix acc)
        t).indexes.map fun ix => ix.name).Nodup := by
  induction cfg generalizing t with
  | nil => exact ht
  | cons ix cfg ih =>
    rw [List.map_cons, List.nodup_cons] at hc
    rw [List.foldl_cons]
    by_cases hcont : containsIndex t ix.name = true
    · rw [if_pos hcont]; exact ih t hc.2 ht
    · rw [if_neg hcont]
      refine ih (createIndex ix t) hc.2 ?_
      have hnot : ix.name ∉ t.indexes.map fun ix2 => ix2.name := by
        intro hmem
        exact hcont (by simpa [containsIndex, List.any_eq_true] using hmem)
      simp only [createIndex, List.map_append]
      exact List.Nodup.append ht (by simp) (by simpa [List.disjoint_right] using hnot)

theorem syncIndexes_name (s : StoreSchema) (t : StoreState) :
    (syncIndexes s t).name = t.name ∧ (syncIndexes s t).options = t.options := by
  unfold syncIndexes
  rw [syncIndexes_deletion]
  exact createIndexFold_name (cfgIndex s) _

/-- Index reconciliation result: given unique configured index names and a
store whose index names are unique, the resulting index name set is exactly
the configured one. -/
theorem syncIndexes_names_perm (s : StoreSchema) (t : StoreState)
    (hc : ((cfgIndex s).map fun ix => ix.name).Nodup)
    (ht : (t.indexes.map fun ix => ix.name).Nodup) :
    ((syncIndexes s t).indexes.map fun ix => ix.name).Perm
      ((cfgIndex s).map fun ix => ix.name) := by
  unfold syncIndexes
  rw [syncIndexes_deletion]
  set t1 : StoreState :=
    { t with indexes := t.indexes.filter fun ix => (cfgIndex s).any fun j => j.name = ix.name }
    with ht1
  have ht1nodup : (t1.indexes.map fun ix => ix.name).Nodup :=
    List.Nodup.sublist (List.Sublist.map _ (List.filter_sublist t.indexes)) ht
  have ht1sub : ∀ m, (m ∈ t1.indexes.map fun ix => ix.name)
      → m ∈ (cfgIndex s).map fun ix => ix.name := by
    intro m hm
    rw [List.mem_map] at hm
    obtain ⟨ix, hmem, hname⟩ := hm
    rw [List.mem_filter] at hmem
    have h2 := hmem.2
    simp only [List.any_eq_true, decide_eq_true_eq] at h2
    obtain ⟨j, hj, hje⟩ := h2
    rw [List.mem_map]
    exact ⟨j, hj, by rw [hje, hname]⟩
  have hnodup := createIndexFold_nodup (cfgIndex s) t1 hc ht1nodup
  refine List.perm_of_nodup_nodup_toFinset_eq hnodup hc ?_
  ext m
  simp only [List.mem_toFinset]
  rw [createIndexFold_mem]
  constructor
  · rintro (h | h)
    · exact ht1sub m h
    · exact h
  · exact fun h => Or.inr h

/-- Lookup of the store carrying a given name (the handle
request.transaction.objectStore(name) resolves to). -/
def lookupStore (db : DbStructure) (n : String) : Option StoreState :=
  db.find? fun t => t.name = n

theorem lookupStore_isSome_iff_contains (db : DbStructure) (n : String) :
    (lookupStore db n).isSome = containsStore db n := by
  induction db with
  | nil => rfl
  | cons t db ih =>
    by_cases h : t.name = n
    · simp [lookupStore, containsStore, List.find?_cons, List.any_cons, h]
    · simp only [lookupStore, containsStore] at ih
      simp [lookupStore, containsStore, List.find?_cons, List.any_cons, h, ih]

theorem lookupStore_updateStore_same (n : String) (f : StoreState → StoreState)
    (db : DbStructure) (hf : ∀ t, (f t).name = t.name) :
    lookupStore (updateStore n f db) n = (lookupStore db n).map f := by
  induction db with
  | nil => rfl
  | cons t db ih =>
    rw [updateStore, List.map_cons]
    by_cases h : t.name = n
    · rw [if_pos h]
      unfold lookupStore
      rw [List.find?_cons_of_pos _ (by simp [hf t, h]),
        List.find?_cons_of_pos _ (by simp [h])]
      rfl
    · rw [if_neg h]
      unfold lookupStore
      rw [List.find?_cons_of_neg _ (by simp [h]), List.find?_cons_of_neg _ (by simp [h])]
      rw [updateStore] at ih
      exact ih

theorem lookupStore_updateStore_other (n n2 : String) (f : StoreState → StoreState)
    (db : DbStructure) (hf : ∀ t, (f t).name = t.name) (hne : n ≠ n2) :
    lookupStore (updateStore n2 f db) n = lookupStore db n := by
  induction db with
  | nil => rfl
  | cons t db ih =>
    rw [updateStore, List.map_cons]
    have hgname : (if t.name = n2 then f t else t).name = t.name := by
      by_cases h : t.name = n2
      · rw [if_pos h, hf t]
      · rw [if_neg h]
    by_cases h2 : t.name = n
    · unfold lookupStore
      rw [List.find?_cons_of_pos _ (by rw [decide_eq_true_eq, hgname]; exact h2),
        List.find?_cons_of_pos _ (by rw [decide_eq_true_eq]; exact h2)]
      have : t.name ≠ n2 := fun he => hne (h2 ▸ he.symm ▸ rfl)
      rw [if_neg this]
    · unfold lookupStore
      rw [List.find?_cons_of_neg _ (by simp [hgname, h2]),
        List.find?_cons_of_neg _ (by simp [h2])]
      rw [updateStore] at ih
      exact ih

theorem lookupStore_ensureStore_other (s : StoreSchema) (db : DbStructure)
    (n : String) (hne : n ≠ s.name) :
    lookupStore (ensureStore s db) n = lookupStore db n := by
  unfold ensureStore
  by_cases h : containsStore db s.name = true
  · rw [if_pos h]
  · rw [if_neg h]
    unfold createObjectStore lookupStore
    rw [List.find?_append]
    have hnone : List.find? (fun t => decide (t.name = n))
        ([{ name := s.name, options := s.options, indexes := [] }] : DbStructure)
        = none := by
      rw [List.find?_cons_of_neg _ (by simp; exact fun he => hne he.symm)]
      rfl
    rw [hnone]
    cases List.find? (fun t => decide (t.name = n)) db <;> rfl

theorem contains_iff_mem_names (db : DbStructure) (n : String) :
    containsStore db n = true ↔ n ∈ db.map fun t => t.name := by
  unfold containsStore
  rw [List.any_eq_true, List.mem_map]
  constructor
  · rintro ⟨t, ht, he⟩
    exact ⟨t, ht, by simpa using (decide_eq_true_eq.mp he).symm ▸ rfl⟩
  · rintro ⟨t, ht, he⟩
    exact ⟨t, ht, by simpa using he⟩

theorem updateStore_names (n : String) (f : StoreState → StoreState)
    (db : DbStructure) (hf : ∀ t, (f t).name = t.name) :
    (updateStore n f db).map (fun t => t.name) = db.map fun t => t.name := by
  unfold updateStore
  rw [List.map_map]
  refine List.map_congr_left fun t _ => ?_
  by_cases h : t.name = n
  · simp [h, hf t]
  · simp [h]

theorem ensureStore_names (s : StoreSchema) (db : DbStructure) :
    (ensureStore s db).map (fun t => t.name)
      = if containsStore db s.name then db.map (fun t => t.name)
        else (db.map fun t => t.name) ++ [s.name] := by
  unfold ensureStore
  by_cases h : containsStore db s.name = true
  · rw [if_pos h, if_pos h]
  · rw [if_neg h, if_neg h]
    unfold createObjectStore
    rw [List.map_append]
    rfl

theorem syncStep_names (acc : DbStructure) (s : StoreSchema) :
    (updateStore s.name (syncIndexes s) (ensureStore s acc)).map (fun t => t.name)
      = if containsStore acc s.name then acc.map (fun t => t.name)
        else (acc.map fun t => t.name) ++ [s.name] := by
  rw [updateStore_names _ _ _ (fun t => (syncIndexes_name s t).1), ensureStore_names]

theorem syncFold_names (L : List StoreSchema) (acc : DbStructure)
    (hacc : ((acc.map fun t => t.name)).Nodup) :
    (((L.foldl (fun acc s => updateStore s.name (syncIndexes s) (ensureStore s acc)) acc).map
      fun t => t.name)).Nodup
    ∧ ∀ m, (m ∈ (L.foldl (fun acc s => updateStore s.name (syncIndexes s) (ensureStore s acc))
          acc).map fun t => t.name)
        ↔ (m ∈ acc.map fun t => t.name) ∨ m ∈ L.map fun s => s.name := by
  induction L generalizing acc with
  | nil =>
    exact ⟨hacc, fun m => by simp⟩
  | cons s L ih =>
    rw [List.foldl_cons]
    by_cases hc : containsStore acc s.name = true
    · have hnames := syncStep_names acc s
      rw [if_pos hc] at hnames
      have hmemname : s.name ∈ acc.map fun t => t.name :=
        (contains_iff_mem_names acc s.name).mp hc
      obtain ⟨ihn, ihm⟩ := ih (updateStore s.name (syncIndexes s) (ensureStore s acc))
        (by rw [hnames]; exact hacc)
      refine ⟨ihn, fun m => ?_⟩
      rw [ihm m, hnames, List.map_cons, List.mem_cons]
      constructor
      · rintro (h | h)
        · exact Or.inl h
        · exact Or.inr (Or.inr h)
      · rintro (h | h | h)
        · exact Or.inl h
        · exact Or.inl (h ▸ hmemname)
        · exact Or.inr h
    · have hnames := syncStep_names acc s
      rw [if_neg hc] at hnames
      have hmemname : s.name ∉ acc.map fun t => t.name := by
        intro hm
        exact hc ((contains_iff_mem_names acc s.name).mpr hm)
      obtain ⟨ihn, ihm⟩ := ih (updateStore s.name (syncIndexes s) (ensureStore s acc))
        (by
          rw [hnames]
          exact List.Nodup.append hacc (by simp)
            (by simpa [List.disjoint_right] using hmemname))
      refine ⟨ihn, fun m => ?_⟩
      rw [ihm m, hnames, List.map_cons, List.mem_cons, List.mem_append,
        List.mem_singleton]
      constructor
      · rintro ((h | h) | h)
        · exact Or.inl h
        · exact Or.inr (Or.inl h)
        · exact Or.inr (Or.inr h)
      · rintro (h | h | h)
        · exact Or.inl (Or.inl h)
        · exact Or.inl (Or.inr h)
        · exact Or.inr h

theorem syncFold_untouched (L : List StoreSchema) (acc : DbStructure) (n : String)
    (h : ∀ s ∈ L, s.name ≠ n) :
    lookupStore (L.foldl (fun acc s => updateStore s.name (syncIndexes s) (ensureStore s acc))
        acc) n
      = lookupStore acc n := by
  induction L generalizing acc with
  | nil => rfl
  | cons s L ih =>
    rw [List.foldl_cons]
    have hne : n ≠ s.name := fun he => h s (List.mem_cons_self s L) he.symm
    rw [ih _ fun s2 hs2 => h s2 (List.mem_cons_of_mem s hs2),
      lookupStore_updateStore_other _ _ _ _ (fun t => (syncIndexes_name s t).1) hne,
      lookupStore_ensureStore_other s acc n hne]

theorem lookupStore_syncStep (acc : DbStructure) (s : StoreSchema) :
    lookupStore (updateStore s.name (syncIndexes s) (ensureStore s acc)) s.name
      = some (syncIndexes s ((lookupStore acc s.name).getD
          { name := s.name, options := s.options, indexes := [] })) := by
  cases hl : lookupStore acc s.name with
  | some t0 =>
    have hc : containsStore acc s.name = true := by
      rw [← lookupStore_isSome_iff_contains, hl]
      rfl
    have hens : ensureStore s acc = acc := by unfold ensureStore; rw [if_pos hc]
    rw [hens, lookupStore_updateStore_same _ _ _ (fun t => (syncIndexes_name s t).1), hl]
    rfl
  | none =>
    have hc : containsStore acc s.name = false := by
      rw [← lookupStore_isSome_iff_contains, hl]
      rfl
    have hens : ensureStore s acc
        = acc ++ [{ name := s.name, options := s.options, indexes := [] }] := by
      unfold ensureStore
      rw [if_neg (by rw [hc]; exact Bool.false_ne_true)]
      rfl
    rw [lookupStore_updateStore_same _ _ _ (fun t => (syncIndexes_name s t).1), hens]
    unfold lookupStore
    rw [List.find?_append]
    unfold lookupStore at hl
    rw [hl]
    rw [List.find?_cons_of_pos _ (by simp)]
    rfl

theorem synchronize_eq (db : DbStructure) (stores : List StoreSchema) :
    synchronize db stores
      = stores.foldl (fun acc s => updateStore s.name (syncIndexes s) (ensureStore s acc))
          (db.filter fun t => stores.any fun s => s.name = t.name) := by
  unfold synchronize
  rw [synchronize_deletion_pass]

/-- C4, confirmed.  Under the uniqueness invariants of the data model
(configured store names unique, configured index names unique per store,
and the engine keeping on-disk store and index names unique), the
synchronizer produces exactly the configured structure: the resulting store
name set is a permutation of the configured one (stores absent from the
config are deleted, configured stores absent from disk are created with
their options), for every configured store the store carrying that name
ends with exactly the configured index name set, and index reconciliation
operates on a store that already exists: right after the guarded creation
step the structure always contains the store being reconciled. -/
theorem c4_schema_synchronizer (db : DbStructure) (stores : List StoreSchema)
    (h1 : ((db.map fun t => t.name)).Nodup)
    (h2 : ((stores.map fun s => s.name)).Nodup)
    (h3 : ∀ t ∈ db, ((t.indexes.map fun ix => ix.name)).Nodup)
    (h4 : ∀ s ∈ stores, (((cfgIndex s).map fun ix => ix.name)).Nodup) :
    ((synchronize db stores).map fun t => t.name).Perm (stores.map fun s => s.name) ∧
    (∀ s ∈ stores, ∃ t, lookupStore (synchronize db stores) s.name = some t ∧
      t.name = s.name ∧
      ((t.indexes.map fun ix => ix.name)).Perm ((cfgIndex s).map fun ix => ix.name) ∧
      ((s.name ∉ db.map fun t2 => t2.name) → t.options = s.options)) ∧
    (∀ (s2 : StoreSchema) (acc : DbStructure),
      containsStore (ensureStore s2 acc) s2.name = true) := by
  have hdb1nodup : (((db.filter fun t => stores.any fun s => s.name = t.name).map
      fun t => t.name)).Nodup :=
    List.Nodup.sublist (List.Sublist.map _ (List.filter_sublist db)) h1
  have hdb1sub : ∀ m, (m ∈ (db.filter fun t => stores.any fun s => s.name = t.name).map
      fun t => t.name) → m ∈ stores.map fun s => s.name := by
    intro m hm
    rw [List.mem_map] at hm
    obtain ⟨t, hmem, hname⟩ := hm
    rw [List.mem_filter] at hmem
    have hany := hmem.2
    simp only [List.any_eq_true, decide_eq_true_eq] at hany
    obtain ⟨s, hsmem, hse⟩ := hany
    rw [List.mem_map]
    exact ⟨s, hsmem, by rw [hse, hname]⟩
  refine ⟨?_, ?_, ?_⟩
  · rw [synchronize_eq]
    obtain ⟨hn, hm⟩ := syncFold_names stores _ hdb1nodup
    refine List.perm_of_nodup_nodup_toFinset_eq hn h2 ?_
    ext m
    simp only [List.mem_toFinset]
    rw [hm m]
    constructor
    · rintro (h | h)
      · exact hdb1sub m h
      · exact h
    · exact fun h => Or.inr h
  · intro s hs
    obtain ⟨L1, L2, hsplit⟩ := List.append_of_mem hs
    have hnames : (stores.map fun s2 => s2.name)
        = (L1.map fun s2 => s2.name) ++ s.name :: (L2.map fun s2 => s2.name) := by
      rw [hsplit, List.map_append, List.map_cons]
    have hmid := h2
    rw [hnames, List.nodup_middle, List.nodup_cons, List.mem_append] at hmid
    have hL1 : ∀ s2 ∈ L1, s2.name ≠ s.name := by
      intro s2 hs2 he
      exact hmid.1 (Or.inl (he ▸ List.mem_map_of_mem _ hs2))
    have hL2 : ∀ s2 ∈ L2, s2.name ≠ s.name := by
      intro s2 hs2 he
      exact hmid.1 (Or.inr (he ▸ List.mem_map_of_mem _ hs2))
    rw [synchronize_eq]
    generalize hgen : (db.filter fun t => stores.any fun s2 => s2.name = t.name) = dbf
    rw [hsplit, List.foldl_append, List.foldl_cons,
      syncFold_untouched L2 _ s.name hL2, lookupStore_syncStep,
      syncFold_untouched L1 _ s.name hL1]
    cases hl : lookupStore dbf s.name with
    | some t0 =>
      rw [← hgen] at hl
      have hmem1 := List.mem_of_find?_eq_some hl
      have hname : t0.name = s.name := by
        have := List.find?_some hl
        simpa using this
      have hmemdb : t0 ∈ db := (List.mem_filter.mp hmem1).1
      refine ⟨syncIndexes s t0, rfl, ?_, ?_, ?_⟩
      · rw [(syncIndexes_name s t0).1, hname]
      · exact syncIndexes_names_perm s t0 (h4 s hs) (h3 t0 hmemdb)
      · intro hnot
        exact absurd (hname ▸ List.mem_map_of_mem _ hmemdb) hnot
    | none =>
      refine ⟨syncIndexes s { name := s.name, options := s.options, indexes := [] },
        rfl, ?_, ?_, fun _ => ?_⟩
      · rw [(syncIndexes_name s _).1]
      · exact syncIndexes_names_perm s _ (h4 s hs) (by simp)
      · rw [(syncIndexes_name s _).2]
  · intro s2 acc
    unfold ensureStore
    by_cases h : containsStore acc s2.name = true
    · rw [if_pos h]; exact h
    · rw [if_neg h]
      unfold containsStore createObjectStore
      rw [List.any_append]
      simp

/-- C4, witness at the scenario from the spec: a structure holding store A
reopened with a configuration listing only store B yields exactly store
B. -/
theorem c4_witness :
    ((synchronize [{ name := "A", options := none, indexes := [] }]
        [{ name := "B", options := none, index := none }]).map fun t => t.name).Perm
      (([{ name := "B", options := none, index := none }] : List StoreSchema).map
        fun s => s.name) :=
  (c4_schema_synchronizer [{ name := "A", options := none, indexes := [] }]
    [{ name := "B", options := none, index := none }]
    (by decide) (by decide) (by decide) (by decide)).1

end IDBP
